import Mathlib

/-
Verification of the STOMP angular-correlation core against its
natural-language specification.

The development shallowly embeds the relevant C++ classes:
  * s2omp::angular_bin            (src/s2omp/angular_bin-inl.h)
  * Stomp::RegionMap              (src/stomp/stomp_base_map.cc)
  * s2omp::field_union            (src/s2omp/field_union.h; the .cc body is
                                   absent, so its two conversions are modelled
                                   from the spec)
C++ doubles are modelled as exact rationals wherever the code uses only
field operations, and as real numbers where square roots or pi appear.
-/

set_option maxHeartbeats 1600000

namespace s2omp

/-- State of an s2omp::angular_bin object: the angular bounds, the global
accumulators and the parallel per-region accumulator vectors, mirroring the
private fields of the C++ class (src/s2omp/angular_bin-inl.h lines 230-245). -/
structure angular_bin where
  theta_min_ : ℚ
  theta_max_ : ℚ
  theta_ : ℚ
  costheta_min_ : ℚ
  costheta_max_ : ℚ
  sin2theta_min_ : ℚ
  sin2theta_max_ : ℚ
  pair_weight_ : ℚ
  gal_gal_ : ℚ
  gal_rand_ : ℚ
  rand_gal_ : ℚ
  rand_rand_ : ℚ
  pixel_wtheta_ : ℚ
  pixel_weight_ : ℚ
  wtheta_ : ℚ
  wtheta_error_ : ℚ
  pair_count_ : ℤ
  pair_weight_region_ : List ℚ
  gal_gal_region_ : List ℚ
  gal_rand_region_ : List ℚ
  rand_gal_region_ : List ℚ
  rand_rand_region_ : List ℚ
  pixel_wtheta_region_ : List ℚ
  pixel_weight_region_ : List ℚ
  wtheta_region_ : List ℚ
  wtheta_error_region_ : List ℚ
  pair_counts_region_ : List ℤ
  level_ : ℤ
  n_region_ : ℕ
  set_wtheta_error_ : Bool
  set_wtheta_ : Bool

/-- The per-region update loop shared by the deposit methods:
for k = 0 .. n-1, add x to entry k unless k equals region_a or region_b
(the leave-one-out update).  The first ℕ argument is the index of the head
of the list, so the exported form starts at 0. -/
def updRegion {α : Type} [Add α] (n : ℕ) (a b : ℤ) (x : α) : ℕ → List α → List α
  | _, [] => []
  | i, v :: vs =>
      (if i < n ∧ (i : ℤ) ≠ a ∧ (i : ℤ) ≠ b then v + x else v) ::
        updRegion n a b x (i + 1) vs

theorem updRegion_getElem {α : Type} [Add α] (n : ℕ) (a b : ℤ) (x : α)
    (xs : List α) : ∀ (i k : ℕ),
    (updRegion n a b x i xs)[k]? =
      (xs[k]?).map (fun v =>
        if i + k < n ∧ ((i + k : ℕ) : ℤ) ≠ a ∧ ((i + k : ℕ) : ℤ) ≠ b then v + x
        else v) := by
  induction xs with
  | nil => intro i k; simp [updRegion]
  | cons v vs ih =>
      intro i k
      cases k with
      | zero => simp [updRegion]
      | succ k =>
          simp only [updRegion, List.getElem?_cons_succ]
          rw [ih (i + 1) k, show i + 1 + k = i + (k + 1) from by omega]

theorem updRegion_length {α : Type} [Add α] (n : ℕ) (a b : ℤ) (x : α)
    (xs : List α) : ∀ i : ℕ, (updRegion n a b x i xs).length = xs.length := by
  induction xs with
  | nil => intro i; rfl
  | cons v vs ih => intro i; simp [updRegion, ih]

/-- angular_bin::add_to_weight(double, int, int)
(src/s2omp/angular_bin-inl.h lines 457-467). -/
def angular_bin.add_to_weight (bin : angular_bin) (weight : ℚ)
    (region_a region_b : ℤ) : angular_bin :=
  { bin with
    pair_weight_ := bin.pair_weight_ + weight
    pair_weight_region_ :=
      if region_a ≠ -1 ∧ region_b ≠ -1 then
        updRegion bin.n_region_ region_a region_b weight 0
          bin.pair_weight_region_
      else bin.pair_weight_region_ }

/-- angular_bin::add_to_counter(long, int, int)
(src/s2omp/angular_bin-inl.h lines 473-482). -/
def angular_bin.add_to_counter (bin : angular_bin) (step : ℤ)
    (region_a region_b : ℤ) : angular_bin :=
  { bin with
    pair_count_ := bin.pair_count_ + step
    pair_counts_region_ :=
      if region_a ≠ -1 ∧ region_b ≠ -1 then
        updRegion bin.n_region_ region_a region_b step 0
          bin.pair_counts_region_
      else bin.pair_counts_region_ }

/-- angular_bin::add_to_pair_wtheta(double, long, int, int)
(src/s2omp/angular_bin-inl.h lines 489-502). -/
def angular_bin.add_to_pair_wtheta (bin : angular_bin) (weight : ℚ) (step : ℤ)
    (region_a region_b : ℤ) : angular_bin :=
  { bin with
    pair_weight_ := bin.pair_weight_ + weight
    pair_count_ := bin.pair_count_ + step
    pair_weight_region_ :=
      if region_a ≠ -1 ∧ region_b ≠ -1 then
        updRegion bin.n_region_ region_a region_b weight 0
          bin.pair_weight_region_
      else bin.pair_weight_region_
    pair_counts_region_ :=
      if region_a ≠ -1 ∧ region_b ≠ -1 then
        updRegion bin.n_region_ region_a region_b step 0
          bin.pair_counts_region_
      else bin.pair_counts_region_ }

/-- angular_bin::add_to_pixel_wtheta(double, double, int, int)
(src/s2omp/angular_bin-inl.h lines 438-451). -/
def angular_bin.add_to_pixel_wtheta (bin : angular_bin) (dwtheta dweight : ℚ)
    (region_a region_b : ℤ) : angular_bin :=
  { bin with
    pixel_wtheta_ := bin.pixel_wtheta_ + dwtheta
    pixel_weight_ := bin.pixel_weight_ + dweight
    pixel_wtheta_region_ :=
      if region_a ≠ -1 ∧ region_b ≠ -1 then
        updRegion bin.n_region_ region_a region_b dwtheta 0
          bin.pixel_wtheta_region_
      else bin.pixel_wtheta_region_
    pixel_weight_region_ :=
      if region_a ≠ -1 ∧ region_b ≠ -1 then
        updRegion bin.n_region_ region_a region_b dweight 0
          bin.pixel_weight_region_
      else bin.pixel_weight_region_ }

/-- angular_bin::wtheta() (src/s2omp/angular_bin-inl.h lines 644-651). -/
def angular_bin.wtheta (bin : angular_bin) : ℚ :=
  if bin.set_wtheta_ then bin.wtheta_
  else if bin.level_ = -1 then
    (bin.gal_gal_ - bin.gal_rand_ - bin.rand_gal_ + bin.rand_rand_) /
      bin.rand_rand_
  else bin.pixel_wtheta_ / bin.pixel_weight_

theorem updRegion_getElem_zero {α : Type} [Add α] (n : ℕ) (a b : ℤ) (x : α)
    (xs : List α) (k : ℕ) (hk : k < n) :
    (updRegion n a b x 0 xs)[k]? =
      (xs[k]?).map (fun v => if (k : ℤ) ≠ a ∧ (k : ℤ) ≠ b then v + x else v) := by
  rw [updRegion_getElem]
  simp [hk]

/-- The effects claimed for the four region-aware deposit methods when both
region arguments are genuine region indices: each global accumulator grows by
the deposited amount and the entry for region k grows by the deposited amount
exactly when k differs from both endpoint regions. -/
def c1_effects (bin : angular_bin) (w dw dwt : ℚ) (s : ℤ) (a b : ℤ)
    (k : ℕ) : Prop :=
  ((bin.add_to_weight w a b).pair_weight_ = bin.pair_weight_ + w ∧
    (bin.add_to_weight w a b).pair_weight_region_[k]? =
      (bin.pair_weight_region_[k]?).map
        (fun v => if (k : ℤ) ≠ a ∧ (k : ℤ) ≠ b then v + w else v)) ∧
  ((bin.add_to_counter s a b).pair_count_ = bin.pair_count_ + s ∧
    (bin.add_to_counter s a b).pair_counts_region_[k]? =
      (bin.pair_counts_region_[k]?).map
        (fun v => if (k : ℤ) ≠ a ∧ (k : ℤ) ≠ b then v + s else v)) ∧
  ((bin.add_to_pair_wtheta w s a b).pair_weight_ = bin.pair_weight_ + w ∧
    (bin.add_to_pair_wtheta w s a b).pair_count_ = bin.pair_count_ + s ∧
    (bin.add_to_pair_wtheta w s a b).pair_weight_region_[k]? =
      (bin.pair_weight_region_[k]?).map
        (fun v => if (k : ℤ) ≠ a ∧ (k : ℤ) ≠ b then v + w else v) ∧
    (bin.add_to_pair_wtheta w s a b).pair_counts_region_[k]? =
      (bin.pair_counts_region_[k]?).map
        (fun v => if (k : ℤ) ≠ a ∧ (k : ℤ) ≠ b then v + s else v)) ∧
  ((bin.add_to_pixel_wtheta dw dwt a b).pixel_wtheta_ = bin.pixel_wtheta_ + dw ∧
    (bin.add_to_pixel_wtheta dw dwt a b).pixel_weight_ =
      bin.pixel_weight_ + dwt ∧
    (bin.add_to_pixel_wtheta dw dwt a b).pixel_wtheta_region_[k]? =
      (bin.pixel_wtheta_region_[k]?).map
        (fun v => if (k : ℤ) ≠ a ∧ (k : ℤ) ≠ b then v + dw else v) ∧
    (bin.add_to_pixel_wtheta dw dwt a b).pixel_weight_region_[k]? =
      (bin.pixel_weight_region_[k]?).map
        (fun v => if (k : ℤ) ≠ a ∧ (k : ℤ) ≠ b then v + dwt else v))

/-- Claim C1: for a bin with N > 0 initialized regions and any deposit with
region indices 0 ≤ a < N and 0 ≤ b < N, the global accumulator grows by the
deposited amount and the per-region accumulator for region k < N grows by the
deposited amount if and only if k differs from a and from b, for all four
deposit methods add_to_weight / add_to_counter / add_to_pair_wtheta /
add_to_pixel_wtheta. -/
theorem c1_leave_one_out (bin : angular_bin) (w dw dwt : ℚ) (s : ℤ)
    (a b : ℤ) (k : ℕ)
    (hN : 0 < bin.n_region_)
    (ha0 : 0 ≤ a) (haN : a < (bin.n_region_ : ℤ))
    (hb0 : 0 ≤ b) (hbN : b < (bin.n_region_ : ℤ))
    (hk : k < bin.n_region_)
    (hlen1 : bin.pair_weight_region_.length = bin.n_region_)
    (hlen2 : bin.pair_counts_region_.length = bin.n_region_)
    (hlen3 : bin.pixel_wtheta_region_.length = bin.n_region_)
    (hlen4 : bin.pixel_weight_region_.length = bin.n_region_) :
    c1_effects bin w dw dwt s a b k := by
  have hA : a ≠ -1 := by omega
  have hB : b ≠ -1 := by omega
  refine ⟨⟨rfl, ?_⟩, ⟨rfl, ?_⟩, ⟨rfl, rfl, ?_, ?_⟩, ⟨rfl, rfl, ?_, ?_⟩⟩ <;>
    simp [angular_bin.add_to_weight, angular_bin.add_to_counter,
      angular_bin.add_to_pair_wtheta, angular_bin.add_to_pixel_wtheta,
      hA, hB, updRegion_getElem_zero _ _ _ _ _ k hk]

/-- A bin state with every accumulator cleared, used to build concrete
witness inputs. -/
def bin_zero : angular_bin :=
  ⟨0, 0, 0, 0, 0, 0, 0, 0, 0, 0, 0, 0, 0, 0, 0, 0, 0,
    [], [], [], [], [], [], [], [], [], [], -1, 0, false, false⟩

/-- A concrete bin with three initialized regions. -/
def bin_three : angular_bin :=
  { bin_zero with
    n_region_ := 3
    pair_weight_region_ := [0, 0, 0]
    pair_counts_region_ := [0, 0, 0]
    pixel_wtheta_region_ := [0, 0, 0]
    pixel_weight_region_ := [0, 0, 0] }

theorem c1_leave_one_out_witness : c1_effects bin_three 5 7 11 3 0 1 2 :=
  c1_leave_one_out bin_three 5 7 11 3 0 1 2 (by decide) (by decide)
    (by decide) (by decide) (by decide) (by decide) (by decide) (by decide)
    (by decide) (by decide)

/-- The estimator dichotomy claimed for angular_bin::wtheta(): the
Landy-Szalay combination for a pair bin (level -1) and the pixel ratio for a
pixel bin (level at least 0). -/
def c2_estimators (bin : angular_bin) : Prop :=
  (bin.level_ = -1 →
    bin.wtheta =
      (bin.gal_gal_ - bin.gal_rand_ - bin.rand_gal_ + bin.rand_rand_) /
        bin.rand_rand_) ∧
  (0 ≤ bin.level_ → bin.wtheta = bin.pixel_wtheta_ / bin.pixel_weight_)

/-- Claim C2: when the wtheta value has not been explicitly set, wtheta()
returns (GG - GR - RG + RR) / RR for a pair bin (level -1) and
pixel_wtheta / pixel_weight for a pixel bin (level at least 0). -/
theorem c2_wtheta_estimators (bin : angular_bin)
    (h : bin.set_wtheta_ = false) : c2_estimators bin := by
  constructor
  · intro hl
    simp [angular_bin.wtheta, h, hl]
  · intro hl
    have hne : ¬ bin.level_ = -1 := by omega
    simp [angular_bin.wtheta, h, hne]

theorem c2_wtheta_estimators_witness : c2_estimators bin_three :=
  c2_wtheta_estimators bin_three rfl

/-- The effects claimed for deposits carrying a -1 region index: the global
accumulators still grow by the deposited amounts while every per-region
vector is left entirely unchanged. -/
def c9_effects (bin : angular_bin) (w dw dwt : ℚ) (s : ℤ) (a b : ℤ) : Prop :=
  ((bin.add_to_weight w a b).pair_weight_ = bin.pair_weight_ + w ∧
    (bin.add_to_weight w a b).pair_weight_region_ =
      bin.pair_weight_region_) ∧
  ((bin.add_to_counter s a b).pair_count_ = bin.pair_count_ + s ∧
    (bin.add_to_counter s a b).pair_counts_region_ =
      bin.pair_counts_region_) ∧
  ((bin.add_to_pixel_wtheta dw dwt a b).pixel_wtheta_ =
      bin.pixel_wtheta_ + dw ∧
    (bin.add_to_pixel_wtheta dw dwt a b).pixel_weight_ =
      bin.pixel_weight_ + dwt ∧
    (bin.add_to_pixel_wtheta dw dwt a b).pixel_wtheta_region_ =
      bin.pixel_wtheta_region_ ∧
    (bin.add_to_pixel_wtheta dw dwt a b).pixel_weight_region_ =
      bin.pixel_weight_region_)

/-- Claim C9: a deposit in which either region index is -1 increases the
global accumulators by the deposited amounts and leaves every per-region
accumulator unchanged, for add_to_weight, add_to_counter and
add_to_pixel_wtheta. -/
theorem c9_unregioned_deposits (bin : angular_bin) (w dw dwt : ℚ) (s : ℤ)
    (a b : ℤ) (h : a = -1 ∨ b = -1) : c9_effects bin w dw dwt s a b := by
  have hcond : ¬ (a ≠ -1 ∧ b ≠ -1) := by tauto
  refine ⟨⟨rfl, ?_⟩, ⟨rfl, ?_⟩, ⟨rfl, rfl, ?_, ?_⟩⟩ <;>
    simp [angular_bin.add_to_weight, angular_bin.add_to_counter,
      angular_bin.add_to_pixel_wtheta, hcond]

theorem c9_unregioned_deposits_witness : c9_effects bin_three 5 7 11 3 (-1) 1 :=
  c9_unregioned_deposits bin_three 5 7 11 3 (-1) 1 (Or.inl rfl)

/-- angular_bin::wtheta(int region) (src/s2omp/angular_bin-inl.h
lines 653-669). -/
def angular_bin.wtheta_region (bin : angular_bin) (region : ℤ) : ℚ :=
  if bin.set_wtheta_ then
    if region = -1 then bin.wtheta_
    else if region < (bin.n_region_ : ℤ) then
      bin.wtheta_region_.getD region.toNat 0
    else -1
  else if bin.level_ = -1 then
    if region = -1 then
      (bin.gal_gal_ - bin.gal_rand_ - bin.rand_gal_ + bin.rand_rand_) /
        bin.rand_rand_
    else if region < (bin.n_region_ : ℤ) then
      (bin.gal_gal_region_.getD region.toNat 0 -
          bin.gal_rand_region_.getD region.toNat 0 -
          bin.rand_gal_region_.getD region.toNat 0 +
          bin.rand_rand_region_.getD region.toNat 0) /
        bin.rand_rand_region_.getD region.toNat 0
    else -1
  else
    if region = -1 then bin.pixel_wtheta_ / bin.pixel_weight_
    else if region < (bin.n_region_ : ℤ) then
      bin.pixel_wtheta_region_.getD region.toNat 0 /
        bin.pixel_weight_region_.getD region.toNat 0
    else -1

/-- angular_bin::mean_wtheta() (src/s2omp/angular_bin-inl.h lines 753-758):
the loop accumulates wtheta(k) / n_region over the regions. -/
def angular_bin.mean_wtheta (bin : angular_bin) : ℚ :=
  ∑ k ∈ Finset.range bin.n_region_,
    bin.wtheta_region (k : ℤ) / (bin.n_region_ : ℚ)

/-- angular_bin::mean_wtheta_error() (src/s2omp/angular_bin-inl.h
lines 760-767): the loop accumulates (mean - wtheta(k))^2 and the result is
(n_region - 1) * sqrt(sum) / n_region, with 0 returned for zero regions. -/
noncomputable def angular_bin.mean_wtheta_error (bin : angular_bin) : ℝ :=
  if bin.n_region_ = 0 then 0
  else
    ((bin.n_region_ : ℝ) - 1) *
      Real.sqrt (∑ k ∈ Finset.range bin.n_region_,
        ((bin.mean_wtheta : ℝ) - (bin.wtheta_region (k : ℤ) : ℝ)) ^ 2) /
      (bin.n_region_ : ℝ)

/-- The jackknife mean and error formulas exactly as claim C3 states them:
the mean over regions, and the square root of (N-1)/N times the sum of
squared deviations. -/
def c3_claim (bin : angular_bin) : Prop :=
  bin.mean_wtheta =
    (1 / (bin.n_region_ : ℚ)) *
      ∑ k ∈ Finset.range bin.n_region_, bin.wtheta_region (k : ℤ) ∧
  bin.mean_wtheta_error =
    Real.sqrt ((((bin.n_region_ : ℝ) - 1) / (bin.n_region_ : ℝ)) *
      ∑ k ∈ Finset.range bin.n_region_,
        ((bin.wtheta_region (k : ℤ) : ℝ) - (bin.mean_wtheta : ℝ)) ^ 2)

/-- A concrete two-region bin whose per-region Landy-Szalay values are 0 and
2, so that the code error (N-1)*sqrt(sum)/N = sqrt(2)/2 differs from the
claimed sqrt((N-1)/N * sum) = 1. -/
def bin_c3 : angular_bin :=
  { bin_zero with
    n_region_ := 2
    gal_gal_region_ := [-1, 1]
    gal_rand_region_ := [0, 0]
    rand_gal_region_ := [0, 0]
    rand_rand_region_ := [1, 1] }

/-- Counterexample to claim C3 as stated: on `bin_c3` the code computes
mean_wtheta_error = sqrt(2)/2 while the claimed formula evaluates to 1. -/
theorem c3_counterexample : ¬ c3_claim bin_c3 := by
  intro h
  obtain ⟨-, h2⟩ := h
  have hw0 : bin_c3.wtheta_region (0 : ℤ) = 0 := by
    norm_num [angular_bin.wtheta_region, bin_c3, bin_zero]
  have hw1 : bin_c3.wtheta_region (1 : ℤ) = 2 := by
    norm_num [angular_bin.wtheta_region, bin_c3, bin_zero]
  have hm : bin_c3.mean_wtheta = 1 := by
    rw [angular_bin.mean_wtheta, show bin_c3.n_region_ = 2 from rfl]
    simp [Finset.sum_range_succ, hw0, hw1]
  have hn : bin_c3.n_region_ = 2 := rfl
  rw [angular_bin.mean_wtheta_error, hn] at h2
  simp only [Finset.sum_range_succ, Finset.sum_range_zero, Nat.cast_ofNat,
    Nat.cast_zero, Nat.cast_one, hw0, hw1, hm] at h2
  norm_num at h2
  have hs : Real.sqrt 2 = 2 := by
    have h2' : Real.sqrt 2 / 2 = 1 := by
      rw [← h2]
    field_simp at h2'
    linarith
  have hsq : Real.sqrt 2 ^ 2 = 2 := Real.sq_sqrt (by norm_num)
  rw [hs] at hsq
  norm_num at hsq

/-- The corrected jackknife formulas: the mean as claimed, and the error
with the factor (N-1)/N outside the square root, as the code computes it. -/
def c3_amended_prop (bin : angular_bin) : Prop :=
  bin.mean_wtheta =
    (1 / (bin.n_region_ : ℚ)) *
      ∑ k ∈ Finset.range bin.n_region_, bin.wtheta_region (k : ℤ) ∧
  bin.mean_wtheta_error =
    (((bin.n_region_ : ℝ) - 1) / (bin.n_region_ : ℝ)) *
      Real.sqrt (∑ k ∈ Finset.range bin.n_region_,
        ((bin.wtheta_region (k : ℤ) : ℝ) - (bin.mean_wtheta : ℝ)) ^ 2)

/-- Claim C3 amended: for a bin with N > 0 regions, mean_wtheta() is the mean
of the per-region wtheta values, and mean_wtheta_error() equals
(N-1)/N * sqrt(sum of squared deviations) - the (N-1)/N factor multiplies the
square root instead of sitting under it. -/
theorem c3_amended (bin : angular_bin) (hN : 0 < bin.n_region_) :
    c3_amended_prop bin := by
  constructor
  · rw [angular_bin.mean_wtheta, ← Finset.sum_div]
    ring
  · rw [angular_bin.mean_wtheta_error, if_neg (by omega)]
    have hs : ∑ k ∈ Finset.range bin.n_region_,
        ((bin.mean_wtheta : ℝ) - (bin.wtheta_region (k : ℤ) : ℝ)) ^ 2 =
        ∑ k ∈ Finset.range bin.n_region_,
          ((bin.wtheta_region (k : ℤ) : ℝ) - (bin.mean_wtheta : ℝ)) ^ 2 :=
      Finset.sum_congr rfl (fun k _ => by rw [← neg_sub, neg_sq])
    rw [hs]
    ring

theorem c3_amended_witness : c3_amended_prop bin_c3 :=
  c3_amended bin_c3 (by decide)

/-- Modelled from the spec: the constant MAX_LEVEL from the missing core.h.
The spec fixes the maximum pixelization depth by "every key has a unique
level in [0, L_max] where L_max ≥ 30"; we take the standard value 30. -/
def MAX_LEVEL : ℕ := 30

/-- Modelled from the spec: pixel::average_area(level) from the missing
pixel.h.  Per the spec, the average area at level l is the total sphere area
divided by the number of pixels at level l, with four-fold refinement per
level and a cube-face quadtree (6 base faces); it is expressed in square
degrees to match the degree-valued angular bounds stored in angular_bin
(4 pi steradians times (180/pi)^2 square degrees per steradian). -/
noncomputable def average_area (level : ℕ) : ℝ :=
  4 * Real.pi * (180 / Real.pi) ^ 2 / (6 * 4 ^ level)

/-- Modelled from the spec: double_ge from the missing core.h - inclusive
comparison with tolerance 1e-10 (spec section 4.6). -/
def double_ge (x y : ℝ) : Prop := y - 1 / 10 ^ 10 ≤ x

/-- Modelled from the spec: double_le from the missing core.h - inclusive
comparison with tolerance 1e-10 (spec section 4.6). -/
def double_le (x y : ℝ) : Prop := x ≤ y + 1 / 10 ^ 10

/-- angular_bin::is_within_bounds(double)
(src/s2omp/angular_bin-inl.h lines 409-411). -/
def angular_bin.is_within_bounds (bin : angular_bin) (theta : ℝ) : Prop :=
  double_ge theta (bin.theta_min_ : ℝ) ∧ double_le theta (bin.theta_max_ : ℝ)

/-- The angular scale sqrt(2 * average_area(level)) tested by
angular_bin::find_level (src/s2omp/angular_bin-inl.h line 389). -/
noncomputable def scale_at (level : ℕ) : ℝ :=
  Real.sqrt (2 * average_area level)

/-- The condition on which the find_level loop breaks at a given level
(src/s2omp/angular_bin-inl.h line 390). -/
def find_level_break (bin : angular_bin) (level : ℕ) : Prop :=
  bin.is_within_bounds (scale_at level) ∨
    scale_at level < (bin.theta_min_ : ℝ)

open Classical in
/-- The loop of angular_bin::find_level
(src/s2omp/angular_bin-inl.h lines 383-395), started at an arbitrary level:
scan levels upward from l and return the first one whose scale breaks the
loop, or -1 when no level below MAX_LEVEL does. -/
noncomputable def find_level_from (bin : angular_bin) (l : ℕ) : ℤ :=
  if h : MAX_LEVEL ≤ l then -1
  else if find_level_break bin l then (l : ℤ)
  else find_level_from bin (l + 1)
termination_by MAX_LEVEL - l
decreasing_by omega

/-- angular_bin::find_level(): the level stored into level_
(src/s2omp/angular_bin-inl.h lines 383-395). -/
noncomputable def angular_bin.find_level (bin : angular_bin) : ℤ :=
  find_level_from bin 0

theorem find_level_from_stop (bin : angular_bin) (l : ℕ)
    (h1 : ¬ MAX_LEVEL ≤ l) (h2 : find_level_break bin l) :
    find_level_from bin l = (l : ℤ) := by
  rw [find_level_from, dif_neg h1, if_pos h2]

theorem find_level_from_step (bin : angular_bin) (l : ℕ)
    (h1 : ¬ MAX_LEVEL ≤ l) (h2 : ¬ find_level_break bin l) :
    find_level_from bin l = find_level_from bin (l + 1) := by
  rw [find_level_from, dif_neg h1, if_neg h2]

theorem find_level_from_first (bin : angular_bin) :
    ∀ (d start l : ℕ), l - start = d → start ≤ l → l < MAX_LEVEL →
      find_level_break bin l →
      (∀ m : ℕ, start ≤ m → m < l → ¬ find_level_break bin m) →
      find_level_from bin start = (l : ℤ) := by
  intro d
  induction d with
  | zero =>
      intro start l hd hsl hlM hb hmin
      have heq : start = l := by omega
      subst heq
      exact find_level_from_stop bin start (by omega) hb
  | succ d ih =>
      intro start l hd hsl hlM hb hmin
      have hlt : start < l := by omega
      rw [find_level_from_step bin start (by omega)
        (hmin start le_rfl hlt)]
      exact ih (start + 1) l (by omega) (by omega) hlM hb
        (fun m hm1 hm2 => hmin m (by omega) hm2)

theorem find_level_from_all_fail (bin : angular_bin) :
    ∀ (d start : ℕ), MAX_LEVEL - start = d →
      (∀ m : ℕ, start ≤ m → m < MAX_LEVEL → ¬ find_level_break bin m) →
      find_level_from bin start = -1 := by
  intro d
  induction d with
  | zero =>
      intro start hd hall
      rw [find_level_from, dif_pos (by omega)]
  | succ d ih =>
      intro start hd hall
      rw [find_level_from_step bin start (by omega)
        (hall start le_rfl (by omega))]
      exact ih (start + 1) (by omega) (fun m hm1 hm2 => hall m (by omega) hm2)

/-- The behaviour claim C4 attributes to find_level: the stored level is the
largest l below MAX_LEVEL whose scale sqrt(2*average_area(l)) still reaches
theta_min, and -1 when no level reaches it. -/
def c4_claim (bin : angular_bin) : Prop :=
  (∃ l : ℕ, l < MAX_LEVEL ∧ (bin.theta_min_ : ℝ) ≤ scale_at l ∧
    bin.find_level = (l : ℤ) ∧
    ∀ m : ℕ, m < MAX_LEVEL → (bin.theta_min_ : ℝ) ≤ scale_at m → m ≤ l) ∨
  ((∀ l : ℕ, l < MAX_LEVEL → ¬ ((bin.theta_min_ : ℝ) ≤ scale_at l)) ∧
    bin.find_level = -1)

/-- A wide concrete bin: bounds 0.001 to 1000 degrees. -/
def bin_c4 : angular_bin :=
  { bin_zero with theta_min_ := 1 / 1000, theta_max_ := 1000 }

theorem scale_zero_gt : (117 : ℝ) < scale_at 0 := by
  have hpi := Real.pi_pos
  have hlt := Real.pi_lt_315
  rw [scale_at, average_area]
  rw [show (2 : ℝ) * (4 * Real.pi * (180 / Real.pi) ^ 2 / (6 * 4 ^ 0)) =
      43200 / Real.pi from by field_simp; ring]
  rw [show (117 : ℝ) = Real.sqrt (117 ^ 2) from
    (Real.sqrt_sq (by norm_num)).symm]
  apply Real.sqrt_lt_sqrt (by norm_num)
  rw [lt_div_iff hpi]
  nlinarith

theorem scale_zero_lt : scale_at 0 < 118 := by
  have hpi := Real.pi_pos
  have hgt := Real.pi_gt_314
  rw [scale_at, average_area]
  rw [show (2 : ℝ) * (4 * Real.pi * (180 / Real.pi) ^ 2 / (6 * 4 ^ 0)) =
      43200 / Real.pi from by field_simp; ring]
  rw [show (118 : ℝ) = Real.sqrt (118 ^ 2) from
    (Real.sqrt_sq (by norm_num)).symm]
  apply Real.sqrt_lt_sqrt (by positivity)
  rw [div_lt_iff hpi]
  nlinarith

theorem scale_one_ge : (1 / 1000 : ℝ) ≤ scale_at 1 := by
  have hpi := Real.pi_pos
  have hlt := Real.pi_lt_315
  rw [scale_at, average_area]
  rw [show (2 : ℝ) * (4 * Real.pi * (180 / Real.pi) ^ 2 / (6 * 4 ^ 1)) =
      10800 / Real.pi from by field_simp; ring]
  rw [show (1 / 1000 : ℝ) = Real.sqrt ((1 / 1000) ^ 2) from
    (Real.sqrt_sq (by norm_num)).symm]
  apply Real.sqrt_le_sqrt
  rw [le_div_iff hpi]
  nlinarith

theorem bin_c4_theta_min : (bin_c4.theta_min_ : ℝ) = 1 / 1000 := by
  rw [show bin_c4.theta_min_ = 1 / 1000 from rfl]
  norm_num

theorem bin_c4_break_zero : find_level_break bin_c4 0 := by
  left
  constructor
  · rw [double_ge, bin_c4_theta_min]
    have := scale_zero_gt
    linarith
  · rw [double_le, show (bin_c4.theta_max_ : ℝ) = 1000 from by
      rw [show bin_c4.theta_max_ = 1000 from rfl]; norm_num]
    have := scale_zero_lt
    linarith

theorem bin_c4_find_level : bin_c4.find_level = 0 :=
  find_level_from_stop bin_c4 0 (by norm_num [MAX_LEVEL]) bin_c4_break_zero

/-- Counterexample to claim C4 as stated: on the wide bin `bin_c4`
(bounds 0.001 and 1000 degrees) the loop stops at level 0, the first level
whose scale (about 117 degrees) drops inside the bounds, even though level 1
also satisfies scale >= theta_min, so the stored level is not the largest
level resolving theta_min. -/
theorem c4_counterexample : ¬ c4_claim bin_c4 := by
  intro h
  rcases h with ⟨l, hl, hmin, hfl, hmax⟩ | ⟨hall, hfl⟩
  · have hl0 : (l : ℤ) = 0 := by rw [← hfl, bin_c4_find_level]
    have hl0' : l = 0 := by exact_mod_cast hl0
    have h1 : (1 : ℕ) ≤ l := by
      apply hmax 1 (by norm_num [MAX_LEVEL])
      rw [bin_c4_theta_min]
      exact scale_one_ge
    omega
  · apply hall 0 (by norm_num [MAX_LEVEL])
    rw [bin_c4_theta_min]
    have := scale_zero_gt
    linarith

/-- What find_level actually does: it stores the first (smallest) level
below MAX_LEVEL at which the scale sqrt(2*average_area(l)) either falls
within the tolerance-inclusive bin bounds or drops below theta_min, and -1
when no level below MAX_LEVEL satisfies either condition. -/
def c4_amended_prop (bin : angular_bin) : Prop :=
  (∀ l : ℕ, l < MAX_LEVEL → find_level_break bin l →
    (∀ m : ℕ, m < l → ¬ find_level_break bin m) →
    bin.find_level = (l : ℤ)) ∧
  ((∀ l : ℕ, l < MAX_LEVEL → ¬ find_level_break bin l) →
    bin.find_level = -1)

/-- Claim C4 amended: find_level sets the level to the smallest level l in
[0, MAX_LEVEL) such that sqrt(2*average_area(l)) lies within the bin bounds
(with the 1e-10 tolerance) or is below theta_min, and to -1 (pair-only) when
no level below MAX_LEVEL satisfies this. -/
theorem c4_amended (bin : angular_bin) : c4_amended_prop bin := by
  constructor
  · intro l hl hb hmin
    exact find_level_from_first bin l 0 l (by omega) (by omega) hl hb
      (fun m hm1 hm2 => hmin m hm2)
  · intro hall
    exact find_level_from_all_fail bin MAX_LEVEL 0 (by omega)
      (fun m hm1 hm2 => hall m hm2)

theorem c4_amended_witness : bin_c4.find_level = 0 :=
  (c4_amended bin_c4).1 0 (by norm_num [MAX_LEVEL]) bin_c4_break_zero
    (fun m hm => absurd hm (Nat.not_lt_zero m))

end s2omp

namespace Stomp

/-- A coverage pixel as RegionMap::_Regionate consumes it: its Pixnum key,
its Stripe at the region resolution, and its Weight.  Pixnum and Stripe
computations live in stomp_pixel.cc outside src, so they enter the model as
data. -/
structure spixel where
  pixnum : ℕ
  stripe : ℕ
  weight : ℚ
deriving DecidableEq

/-- A stripe range, the struct named section in stomp_base_map.h (the name
section is reserved in Lean). -/
structure stripe_section where
  min_stripe : ℕ
  max_stripe : ℕ
deriving DecidableEq

/-- The stripe test of the _Regionate inner loop
(src/stomp/stomp_base_map.cc lines 260-261). -/
def in_section (s : stripe_section) (p : spixel) : Bool :=
  decide (s.min_stripe ≤ p.stripe) && decide (p.stripe ≤ s.max_stripe)

/-- The mutable state of RegionMap::_Regionate: the running accumulators,
the current region index, and the region_map_ / region_area_ std::maps
modelled as association lists with unique keys. -/
structure rstate where
  region_area : ℚ
  running_area : ℚ
  region_iter : ℕ
  region_map : List (ℕ × ℕ)
  region_area_map : List (ℕ × ℚ)

/-- std::map insertion-or-assignment, m[k] = v. -/
def map_set {α : Type} (m : List (ℕ × α)) (k : ℕ) (v : α) : List (ℕ × α) :=
  if k ∈ m.map Prod.fst then
    m.map (fun e => if e.1 = k then (k, v) else e)
  else m ++ [(k, v)]

theorem map_set_fresh {α : Type} (m : List (ℕ × α)) (k : ℕ) (v : α)
    (h : k ∉ m.map Prod.fst) : map_set m k v = m ++ [(k, v)] := by
  rw [map_set, if_neg h]

/-- One iteration of the _Regionate sweep over a covering pixel inside the
current section (src/stomp/stomp_base_map.cc lines 262-278): assign the
pixel to the current region when the accumulated area still leaves room
before the next break point, or when the current region is the last one;
otherwise finalize the current region area and open the next region with
this pixel. -/
def regionate_step (mean_area area_break unit_area : ℚ) (n_region : ℕ)
    (st : rstate) (p : spixel) : rstate :=
  if st.region_area + 3 / 4 * mean_area <
        area_break * ((st.region_iter : ℚ) + 1) ∨
      (st.region_iter : ℤ) = (n_region : ℤ) - 1 then
    { st with
      region_area := st.region_area + p.weight * unit_area
      region_map := map_set st.region_map p.pixnum st.region_iter
      running_area := st.running_area + p.weight * unit_area }
  else
    { region_area := st.region_area + p.weight * unit_area
      running_area := p.weight * unit_area
      region_iter := st.region_iter + 1
      region_map := map_set st.region_map p.pixnum (st.region_iter + 1)
      region_area_map :=
        map_set st.region_area_map st.region_iter st.running_area }

/-- The pixel sweep of _Regionate. -/
def regionate_go (mean_area area_break unit_area : ℚ) (n_region : ℕ) :
    List spixel → rstate → rstate
  | [], st => st
  | p :: ps, st =>
      regionate_go mean_area area_break unit_area n_region ps
        (regionate_step mean_area area_break unit_area n_region st p)

/-- The pixels visited by the nested loops of _Regionate, in visit order:
for each section in order, the coverage pixels whose stripe lies in the
section range (src/stomp/stomp_base_map.cc lines 255-261). -/
def section_pixels (coverage : List spixel) :
    List stripe_section → List spixel
  | [] => []
  | s :: rest => coverage.filter (in_section s) ++ section_pixels coverage rest

/-- The weighted area of a pixel list, unit_area * weight summed, as the
base_map_area loop computes it (src/stomp/stomp_base_map.cc
lines 241-245). -/
def footprint_area (unit_area : ℚ) (pixels : List spixel) : ℚ :=
  (pixels.map (fun p => unit_area * p.weight)).sum

/-- RegionMap::_Regionate (src/stomp/stomp_base_map.cc lines 236-285) with
starting_region_index 0 (the value used by the call in InitializeRegions).
Pixel::PixelArea(region_resolution_) is code outside src, so the unit pixel
area enters as the parameter unit_area. -/
def Regionate (coverage : List spixel) (sections : List stripe_section)
    (n_region : ℕ) (unit_area : ℚ) : rstate :=
  let base_map_area := footprint_area unit_area coverage
  let mean_area := base_map_area / (coverage.length : ℚ)
  let area_break := base_map_area / (n_region : ℚ)
  let st := regionate_go mean_area area_break unit_area n_region
    (section_pixels coverage sections) ⟨0, 0, 0, [], []⟩
  { st with
    region_area_map := map_set st.region_area_map st.region_iter
      st.running_area }

/-- The region-assignment sequence exactly as claim C5 describes it: a
covering pixel in a section is assigned to the current region k while
accumulated_area + 0.75 * mean_pixel_area < (k+1) * area_break, or
unconditionally when k is the final region n_region - 1; otherwise region
k+1 is started with this pixel.  This second definition follows the words
of the claim, for comparison with the Regionate sweep. -/
def claim_assign (mean_area area_break unit_area : ℚ) (n_region : ℕ) :
    ℚ → ℕ → List spixel → List (ℕ × ℕ)
  | _, _, [] => []
  | acc, k, p :: ps =>
      if acc + 3 / 4 * mean_area < area_break * ((k : ℚ) + 1) ∨
          (k : ℤ) = (n_region : ℤ) - 1 then
        (p.pixnum, k) ::
          claim_assign mean_area area_break unit_area n_region
            (acc + p.weight * unit_area) k ps
      else
        (p.pixnum, k + 1) ::
          claim_assign mean_area area_break unit_area n_region
            (acc + p.weight * unit_area) (k + 1) ps

theorem regionate_go_region_map (mean_area area_break unit_area : ℚ)
    (n_region : ℕ) :
    ∀ (ps : List spixel) (st : rstate),
      (ps.map spixel.pixnum).Nodup →
      (∀ p ∈ ps, p.pixnum ∉ st.region_map.map Prod.fst) →
      (regionate_go mean_area area_break unit_area n_region ps st).region_map =
        st.region_map ++
          claim_assign mean_area area_break unit_area n_region
            st.region_area st.region_iter ps := by
  intro ps
  induction ps with
  | nil =>
      intro st hnodup hfresh
      simp [regionate_go, claim_assign]
  | cons p ps ih =>
      intro st hnodup hfresh
      have hhead : p.pixnum ∉ st.region_map.map Prod.fst :=
        hfresh p (List.mem_cons_self p ps)
      have hnotin : p.pixnum ∉ ps.map spixel.pixnum :=
        (List.nodup_cons.mp hnodup).1
      have htail : (ps.map spixel.pixnum).Nodup :=
        (List.nodup_cons.mp hnodup).2
      rw [regionate_go, claim_assign]
      by_cases hc : st.region_area + 3 / 4 * mean_area <
          area_break * ((st.region_iter : ℚ) + 1) ∨
          (st.region_iter : ℤ) = (n_region : ℤ) - 1
      · have hstep : regionate_step mean_area area_break unit_area n_region
            st p =
            { st with
              region_area := st.region_area + p.weight * unit_area
              region_map := st.region_map ++ [(p.pixnum, st.region_iter)]
              running_area := st.running_area + p.weight * unit_area } := by
          rw [regionate_step, if_pos hc, map_set_fresh _ _ _ hhead]
        rw [hstep, if_pos hc]
        rw [ih _ htail (fun q hq => by
          simp only [List.map_append, List.mem_append]
          push_neg
          refine ⟨hfresh q (List.mem_cons_of_mem p hq), ?_⟩
          simp only [List.map_cons, List.map_nil, List.mem_singleton]
          intro hcontra
          exact hnotin (hcontra ▸ List.mem_map_of_mem spixel.pixnum hq))]
        simp
      · have hstep : regionate_step mean_area area_break unit_area n_region
            st p =
            { region_area := st.region_area + p.weight * unit_area
              running_area := p.weight * unit_area
              region_iter := st.region_iter + 1
              region_map := st.region_map ++ [(p.pixnum, st.region_iter + 1)]
              region_area_map :=
                map_set st.region_area_map st.region_iter
                  st.running_area } := by
          rw [regionate_step, if_neg hc, map_set_fresh _ _ _ hhead]
        rw [hstep, if_neg hc]
        rw [ih _ htail (fun q hq => by
          simp only [List.map_append, List.mem_append]
          push_neg
          refine ⟨hfresh q (List.mem_cons_of_mem p hq), ?_⟩
          simp only [List.map_cons, List.map_nil, List.mem_singleton]
          intro hcontra
          exact hnotin (hcontra ▸ List.mem_map_of_mem spixel.pixnum hq))]
        simp

theorem Regionate_region_map (coverage : List spixel)
    (sections : List stripe_section) (n_region : ℕ) (unit_area : ℚ)
    (hflat : ((section_pixels coverage sections).map spixel.pixnum).Nodup) :
    (Regionate coverage sections n_region unit_area).region_map =
      claim_assign (footprint_area unit_area coverage / (coverage.length : ℚ))
        (footprint_area unit_area coverage / (n_region : ℚ)) unit_area
        n_region 0 0 (section_pixels coverage sections) := by
  simp only [Regionate]
  rw [regionate_go_region_map _ _ _ _ _ _ hflat (fun q hq => by simp)]
  simp

/-- Claim C5: the Regionate sweep realizes exactly the assignment sequence
stated in the claim - a pixel joins the current region k while the
accumulated area plus 0.75 of the mean pixel area is still below
(k+1) times the target area (or k is the final region), and otherwise opens
region k+1 - with target area footprint/n_region and mean pixel area
footprint/#coverage. -/
theorem c5_sweep_assignment (coverage : List spixel)
    (sections : List stripe_section) (n_region : ℕ) (unit_area : ℚ)
    (hflat : ((section_pixels coverage sections).map spixel.pixnum).Nodup) :
    (Regionate coverage sections n_region unit_area).region_map =
      claim_assign (footprint_area unit_area coverage / (coverage.length : ℚ))
        (footprint_area unit_area coverage / (n_region : ℚ)) unit_area
        n_region 0 0 (section_pixels coverage sections) :=
  Regionate_region_map coverage sections n_region unit_area hflat

/-- Concrete coverage for the C5 witness: three unit-weight pixels on one
stripe. -/
def cov5 : List spixel := [⟨1, 0, 1⟩, ⟨2, 0, 1⟩, ⟨3, 0, 1⟩]

/-- Concrete section list for the C5 witness. -/
def secs5 : List stripe_section := [⟨0, 0⟩]

theorem c5_sweep_assignment_witness :
    (Regionate cov5 secs5 2 4).region_map =
      claim_assign (footprint_area 4 cov5 / (cov5.length : ℚ))
        (footprint_area 4 cov5 / ((2 : ℕ) : ℚ)) 4 2 0 0
        (section_pixels cov5 secs5) :=
  c5_sweep_assignment cov5 secs5 2 4 (by decide)

/-- The sum of the per-region areas recorded in region_area_. -/
def region_area_values (m : List (ℕ × ℚ)) : ℚ :=
  (m.map Prod.snd).sum

theorem footprint_area_cons (unit_area : ℚ) (p : spixel) (ps : List spixel) :
    footprint_area unit_area (p :: ps) =
      unit_area * p.weight + footprint_area unit_area ps := by
  simp [footprint_area]

theorem regionate_go_area (mean_area area_break unit_area : ℚ)
    (n_region : ℕ) :
    ∀ (ps : List spixel) (st : rstate),
      (∀ j ∈ st.region_area_map.map Prod.fst, j < st.region_iter) →
      ((∀ j ∈ (regionate_go mean_area area_break unit_area n_region ps
            st).region_area_map.map Prod.fst,
          j < (regionate_go mean_area area_break unit_area n_region ps
            st).region_iter) ∧
        region_area_values (regionate_go mean_area area_break unit_area
            n_region ps st).region_area_map +
          (regionate_go mean_area area_break unit_area n_region ps
            st).running_area =
          region_area_values st.region_area_map + st.running_area +
            footprint_area unit_area ps) := by
  intro ps
  induction ps with
  | nil =>
      intro st hinv
      exact ⟨hinv, by simp [regionate_go, footprint_area]⟩
  | cons p ps ih =>
      intro st hinv
      rw [regionate_go]
      by_cases hc : st.region_area + 3 / 4 * mean_area <
          area_break * ((st.region_iter : ℚ) + 1) ∨
          (st.region_iter : ℤ) = (n_region : ℤ) - 1
      · have hstep : regionate_step mean_area area_break unit_area n_region
            st p =
            { st with
              region_area := st.region_area + p.weight * unit_area
              region_map := map_set st.region_map p.pixnum st.region_iter
              running_area := st.running_area + p.weight * unit_area } := by
          rw [regionate_step, if_pos hc]
        rw [hstep]
        obtain ⟨ha, hb⟩ := ih
          { st with
            region_area := st.region_area + p.weight * unit_area
            region_map := map_set st.region_map p.pixnum st.region_iter
            running_area := st.running_area + p.weight * unit_area }
          (by simpa using hinv)
        refine ⟨ha, ?_⟩
        rw [hb, footprint_area_cons]
        simp
        ring
      · have hfreshk : st.region_iter ∉ st.region_area_map.map Prod.fst := by
          intro hmem
          exact absurd (hinv _ hmem) (lt_irrefl _)
        have hstep : regionate_step mean_area area_break unit_area n_region
            st p =
            { region_area := st.region_area + p.weight * unit_area
              running_area := p.weight * unit_area
              region_iter := st.region_iter + 1
              region_map := map_set st.region_map p.pixnum
                (st.region_iter + 1)
              region_area_map := st.region_area_map ++
                [(st.region_iter, st.running_area)] } := by
          rw [regionate_step, if_neg hc, map_set_fresh _ _ _ hfreshk]
        rw [hstep]
        obtain ⟨ha, hb⟩ := ih
          { region_area := st.region_area + p.weight * unit_area
            running_area := p.weight * unit_area
            region_iter := st.region_iter + 1
            region_map := map_set st.region_map p.pixnum (st.region_iter + 1)
            region_area_map := st.region_area_map ++
              [(st.region_iter, st.running_area)] }
          (by
            intro j hj
            simp only [List.map_append, List.mem_append, List.map_cons,
              List.map_nil, List.mem_singleton] at hj
            rcases hj with hj | hj
            · exact Nat.lt_succ_of_lt (hinv j hj)
            · subst hj
              exact Nat.lt_succ_self _)
        refine ⟨ha, ?_⟩
        rw [hb, footprint_area_cons]
        simp [region_area_values]
        ring

theorem sum_map_add (f g : spixel → ℚ) (l : List spixel) :
    (l.map (fun x => f x + g x)).sum = (l.map f).sum + (l.map g).sum := by
  induction l with
  | nil => simp
  | cons x xs ih =>
      simp only [List.map_cons, List.sum_cons, ih]
      ring

theorem sum_map_filter (g : spixel → ℚ) (q : spixel → Bool)
    (l : List spixel) :
    ((l.filter q).map g).sum =
      (l.map (fun x => if q x then g x else 0)).sum := by
  induction l with
  | nil => rfl
  | cons x xs ih => by_cases h : q x <;> simp [List.filter_cons, h, ih]

theorem section_pixels_sum (g : spixel → ℚ) (coverage : List spixel) :
    ∀ sections : List stripe_section,
      ((section_pixels coverage sections).map g).sum =
        (coverage.map (fun p =>
          ((sections.countP (fun s => in_section s p) : ℕ) : ℚ) * g p)).sum := by
  intro sections
  induction sections with
  | nil => simp [section_pixels]
  | cons s rest ih =>
      rw [section_pixels, List.map_append, List.sum_append,
        sum_map_filter g (in_section s) coverage, ih, ← sum_map_add]
      refine congrArg List.sum (List.map_congr_left ?_)
      intro p hp
      rw [List.countP_cons]
      by_cases h : in_section s p = true
      · simp only [h, if_true]
        push_cast
        ring
      · simp only [h, if_false]
        simp [h]

theorem footprint_section_pixels (unit_area : ℚ) (coverage : List spixel)
    (sections : List stripe_section)
    (hcount : ∀ p ∈ coverage,
      sections.countP (fun s => in_section s p) = 1) :
    footprint_area unit_area (section_pixels coverage sections) =
      footprint_area unit_area coverage := by
  rw [footprint_area, footprint_area,
    section_pixels_sum (fun p => unit_area * p.weight)]
  refine congrArg List.sum (List.map_congr_left ?_)
  intro p hp
  rw [hcount p hp]
  norm_num

theorem claim_assign_keys (mean_area area_break unit_area : ℚ)
    (n_region : ℕ) :
    ∀ (ps : List spixel) (acc : ℚ) (k : ℕ),
      (claim_assign mean_area area_break unit_area n_region acc k ps).map
          Prod.fst =
        ps.map spixel.pixnum := by
  intro ps
  induction ps with
  | nil => intro acc k; rfl
  | cons p ps ih =>
      intro acc k
      rw [claim_assign]
      by_cases hc : acc + 3 / 4 * mean_area <
          area_break * ((k : ℚ) + 1) ∨ (k : ℤ) = (n_region : ℤ) - 1
      · rw [if_pos hc]
        simp [ih]
      · rw [if_neg hc]
        simp [ih]

theorem countP_fst_eq_count (key : ℕ) :
    ∀ m : List (ℕ × ℕ),
      m.countP (fun e => decide (e.1 = key)) =
        (m.map Prod.fst).count key := by
  intro m
  induction m with
  | nil => rfl
  | cons e m ih =>
      rw [List.countP_cons, List.map_cons, List.count_cons]
      by_cases h : e.1 = key <;> simp [h, ih]

theorem mem_section_pixels (coverage : List spixel) (p : spixel)
    (hp : p ∈ coverage) :
    ∀ (sections : List stripe_section) (s : stripe_section),
      s ∈ sections → in_section s p = true →
      p ∈ section_pixels coverage sections := by
  intro sections
  induction sections with
  | nil => intro s hs _; exact absurd hs (List.not_mem_nil s)
  | cons s2 rest ih =>
      intro s hs hin
      rw [section_pixels]
      rcases List.mem_cons.mp hs with heq | hmem
      · subst heq
        exact List.mem_append_left _ (List.mem_filter.mpr ⟨hp, hin⟩)
      · exact List.mem_append_right _ (ih s hmem hin)

/-- Claim C6: after Regionate over a non-empty coverage whose pixel keys are
distinct and whose stripes are tiled by the sections, the recorded region
areas sum exactly to the weighted footprint area (hence within any relative
tolerance, in particular 1e-9), and every covering pixel key carries exactly
one region assignment. -/
theorem c6_area_conservation (coverage : List spixel)
    (sections : List stripe_section) (n_region : ℕ) (unit_area : ℚ)
    (hN : 0 < n_region)
    (hne : coverage ≠ [])
    (hcov : (coverage.map spixel.pixnum).Nodup)
    (hflat : ((section_pixels coverage sections).map spixel.pixnum).Nodup)
    (hcount : ∀ p ∈ coverage,
      sections.countP (fun s => in_section s p) = 1) :
    region_area_values
        (Regionate coverage sections n_region unit_area).region_area_map =
      footprint_area unit_area coverage ∧
    ∀ p ∈ coverage,
      (Regionate coverage sections n_region unit_area).region_map.countP
        (fun e => decide (e.1 = p.pixnum)) = 1 := by
  constructor
  · obtain ⟨hinv, hsum⟩ := regionate_go_area
      (footprint_area unit_area coverage / (coverage.length : ℚ))
      (footprint_area unit_area coverage / (n_region : ℚ)) unit_area n_region
      (section_pixels coverage sections) ⟨0, 0, 0, [], []⟩ (by simp)
    have hfreshk :
        (regionate_go (footprint_area unit_area coverage /
            (coverage.length : ℚ))
          (footprint_area unit_area coverage / (n_region : ℚ)) unit_area
          n_region (section_pixels coverage sections)
          ⟨0, 0, 0, [], []⟩).region_iter ∉
        (regionate_go (footprint_area unit_area coverage /
            (coverage.length : ℚ))
          (footprint_area unit_area coverage / (n_region : ℚ)) unit_area
          n_region (section_pixels coverage sections)
          ⟨0, 0, 0, [], []⟩).region_area_map.map Prod.fst := by
      intro hmem
      exact absurd (hinv _ hmem) (lt_irrefl _)
    simp only [Regionate]
    rw [map_set_fresh _ _ _ hfreshk]
    have hval : ∀ (m : List (ℕ × ℚ)) (k : ℕ) (v : ℚ),
        region_area_values (m ++ [(k, v)]) = region_area_values m + v := by
      intro m k v
      simp [region_area_values]
    rw [hval]
    rw [show region_area_values (⟨(0 : ℚ), 0, 0, [], []⟩ :
      rstate).region_area_map = 0 from rfl] at hsum
    rw [show (⟨(0 : ℚ), 0, 0, [], []⟩ : rstate).running_area = 0 from
      rfl] at hsum
    rw [footprint_section_pixels unit_area coverage sections hcount] at hsum
    linarith [hsum]
  · intro p hp
    have h1 : 0 < sections.countP (fun s => in_section s p) := by
      rw [hcount p hp]
      norm_num
    obtain ⟨s, hs, hin⟩ := List.countP_pos.mp h1
    have hmem : p ∈ section_pixels coverage sections :=
      mem_section_pixels coverage p hp sections s hs hin
    have hkey : p.pixnum ∈ (section_pixels coverage sections).map
        spixel.pixnum :=
      List.mem_map_of_mem spixel.pixnum hmem
    rw [Regionate_region_map coverage sections n_region unit_area hflat,
      countP_fst_eq_count, claim_assign_keys]
    exact List.count_eq_one_of_mem hflat hkey

/-- Concrete coverage for the C6 witness. -/
def cov6 : List spixel := [⟨1, 0, 1⟩, ⟨2, 0, 1⟩, ⟨3, 1, 1⟩, ⟨4, 1, 1⟩]

/-- Concrete section list for the C6 witness, tiling stripes 0 and 1. -/
def secs6 : List stripe_section := [⟨0, 0⟩, ⟨1, 1⟩]

theorem c6_area_conservation_witness :
    region_area_values (Regionate cov6 secs6 2 3).region_area_map =
      footprint_area 3 cov6 ∧
    ∀ p ∈ cov6,
      (Regionate cov6 secs6 2 3).region_map.countP
        (fun e => decide (e.1 = p.pixnum)) = 1 :=
  c6_area_conservation cov6 secs6 2 3 (by decide) (by decide) (by decide)
    (by decide) (by decide)

/-- Reduction of an integer into the int16_t value range
[-32768, 32767], the wraparound semantics of the int16_t region indices
stored in region_map_. -/
def wrap16 (n : ℤ) : ℤ := (n + 32768) % 65536 - 32768

/-- The region-index check loop at the end of InitializeRegions
(src/stomp/stomp_base_map.cc lines 80-89): the comparison
iter->second < n_region promotes the int16_t stored value and the uint16_t
n_region to int, so it is the signed comparison on ℤ; encountering a stored
value not below n_region aborts the process with code 2, modelled as
Except.error 2.  A negative stored value passes the comparison (the
subsequent region_count_check[negative] is an out-of-bounds vector access,
undefined behaviour modelled as a no-op). -/
def region_check (m : List (ℕ × ℤ)) (n : ℕ) : Except ℕ Unit :=
  if m.all (fun e => decide (e.2 < (n : ℤ))) then Except.ok ()
  else Except.error 2

/-- The n_region value after the reduction of
src/stomp/stomp_base_map.cc lines 45-49: capped at the number of coverage
pixels (n_region is a uint16_t, so inputs are below 65536 and the
assignment of the capped value does not truncate further). -/
def reduced_n (coverage : List spixel) (n_region : ℕ) : ℕ :=
  if coverage.length < n_region then coverage.length else n_region

/-- The region map assigned when the region count equals the number of
coverage pixels (src/stomp/stomp_base_map.cc lines 51-57): pixel number i
in iteration order gets the value of the int16_t counter i, which wraps to
-32768 once i passes 32767. -/
def coverage_enum_from (i : ℤ) : List spixel → List (ℕ × ℤ)
  | [] => []
  | p :: ps => (p.pixnum, wrap16 i) :: coverage_enum_from (i + 1) ps

/-- The enumeration branch of InitializeRegions, started at counter 0. -/
def coverage_enum (coverage : List spixel) : List (ℕ × ℤ) :=
  coverage_enum_from 0 coverage

/-- The region map built by InitializeRegions before the final check: the
one-pixel-per-region enumeration in the degenerate case, and otherwise the
_Regionate sweep; the n_region argument of _Regionate is a uint8_t, hence
the mod 256 truncation of the uint16_t value, and the sweep's region
indices are stored as int16_t values. -/
def init_region_map (coverage : List spixel) (sections : List stripe_section)
    (n_region : ℕ) (unit_area : ℚ) : List (ℕ × ℤ) :=
  if reduced_n coverage n_region = coverage.length then coverage_enum coverage
  else ((Regionate coverage sections (reduced_n coverage n_region % 256)
    unit_area).region_map).map (fun e => (e.1, wrap16 (e.2 : ℤ)))

/-- The outcome of RegionMap::InitializeRegions visible to claim C7. -/
structure init_result where
  region_map : List (ℕ × ℤ)
  n_region : ℕ
deriving DecidableEq

/-- RegionMap::InitializeRegions (src/stomp/stomp_base_map.cc lines 33-94).
The region resolution search and the stripe/section construction depend on
code outside src (Pixel::PixelArea, Pixel::Stripe, map coverage), so the
coverage pixels, the section list and the unit pixel area are inputs; the
function runs the region assignment and then the final check loop, aborting
with exit code 2 (Except.error 2) on an out-of-range stored index. -/
def InitializeRegions (coverage : List spixel)
    (sections : List stripe_section) (n_region : ℕ) (unit_area : ℚ) :
    Except ℕ init_result :=
  match region_check (init_region_map coverage sections n_region unit_area)
      (reduced_n coverage n_region) with
  | Except.ok _ =>
      Except.ok ⟨init_region_map coverage sections n_region unit_area,
        reduced_n coverage n_region⟩
  | Except.error e => Except.error e

theorem wrap16_bounds (n : ℤ) : -32768 ≤ wrap16 n ∧ wrap16 n ≤ 32767 := by
  rw [wrap16]
  omega

theorem coverage_enum_from_values :
    ∀ (l : List spixel) (i : ℤ) (e : ℕ × ℤ), e ∈ coverage_enum_from i l →
      ∃ j : ℤ, i ≤ j ∧ j < i + l.length ∧ e.2 = wrap16 j := by
  intro l
  induction l with
  | nil =>
      intro i e he
      simp [coverage_enum_from] at he
  | cons p ps ih =>
      intro i e he
      rw [coverage_enum_from] at he
      rcases List.mem_cons.mp he with he | he
      · refine ⟨i, le_refl i, ?_, by rw [he]⟩
        rw [List.length_cons]
        push_cast
        omega
      · obtain ⟨j, h1, h2, h3⟩ := ih (i + 1) e he
        refine ⟨j, by omega, ?_, h3⟩
        rw [List.length_cons]
        push_cast
        push_cast at h2
        omega

theorem coverage_enum_from_getElem :
    ∀ (l : List spixel) (i : ℤ) (k : ℕ),
      (coverage_enum_from i l)[k]? =
        (l[k]?).map (fun p => (p.pixnum, wrap16 (i + k))) := by
  intro l
  induction l with
  | nil => intro i k; simp [coverage_enum_from]
  | cons p ps ih =>
      intro i k
      cases k with
      | zero => simp [coverage_enum_from]
      | succ k =>
          simp only [coverage_enum_from, List.getElem?_cons_succ]
          rw [ih (i + 1) k,
            show i + 1 + (k : ℤ) = i + ((k + 1 : ℕ) : ℤ) from by push_cast; ring]

theorem map_set_values {α : Type} (m : List (ℕ × α)) (k : ℕ) (v : α)
    (e : ℕ × α) (he : e ∈ map_set m k v) : e ∈ m ∨ e.2 = v := by
  rw [map_set] at he
  by_cases hmem : k ∈ m.map Prod.fst
  · rw [if_pos hmem] at he
    obtain ⟨x, hx, hxe⟩ := List.mem_map.mp he
    by_cases hxk : x.1 = k
    · right
      rw [← hxe]
      simp [hxk]
    · left
      rw [← hxe]
      simpa [hxk] using hx
  · rw [if_neg hmem] at he
    rcases List.mem_append.mp he with h | h
    · exact Or.inl h
    · right
      simp only [List.mem_singleton] at h
      rw [h]

theorem regionate_go_values_le (mean_area area_break unit_area : ℚ)
    (n_region : ℕ) (hn : 1 ≤ n_region) :
    ∀ (ps : List spixel) (st : rstate),
      st.region_iter ≤ n_region - 1 →
      (∀ e ∈ st.region_map, e.2 ≤ n_region - 1) →
      ∀ e ∈ (regionate_go mean_area area_break unit_area n_region ps
        st).region_map, e.2 ≤ n_region - 1 := by
  intro ps
  induction ps with
  | nil =>
      intro st h1 h2 e he
      rw [regionate_go] at he
      exact h2 e he
  | cons p ps ih =>
      intro st h1 h2 e he
      rw [regionate_go] at he
      by_cases hc : st.region_area + 3 / 4 * mean_area <
          area_break * ((st.region_iter : ℚ) + 1) ∨
          (st.region_iter : ℤ) = (n_region : ℤ) - 1
      · rw [show regionate_step mean_area area_break unit_area n_region st p =
            { st with
              region_area := st.region_area + p.weight * unit_area
              region_map := map_set st.region_map p.pixnum st.region_iter
              running_area := st.running_area + p.weight * unit_area } from
          by rw [regionate_step, if_pos hc]] at he
        refine ih
          { st with
            region_area := st.region_area + p.weight * unit_area
            region_map := map_set st.region_map p.pixnum st.region_iter
            running_area := st.running_area + p.weight * unit_area }
          h1 ?_ e he
        intro e2 he2
        rcases map_set_values st.region_map p.pixnum st.region_iter e2 he2
          with h | h
        · exact h2 e2 h
        · rw [h]
          exact h1
      · push_neg at hc
        have hlt : st.region_iter + 1 ≤ n_region - 1 := by
          have := hc.2
          omega
        rw [show regionate_step mean_area area_break unit_area n_region st p =
            { region_area := st.region_area + p.weight * unit_area
              running_area := p.weight * unit_area
              region_iter := st.region_iter + 1
              region_map := map_set st.region_map p.pixnum
                (st.region_iter + 1)
              region_area_map :=
                map_set st.region_area_map st.region_iter st.running_area }
          from by
            rw [regionate_step, if_neg]
            push_neg
            exact hc] at he
        refine ih
          { region_area := st.region_area + p.weight * unit_area
            running_area := p.weight * unit_area
            region_iter := st.region_iter + 1
            region_map := map_set st.region_map p.pixnum (st.region_iter + 1)
            region_area_map :=
              map_set st.region_area_map st.region_iter st.running_area }
          hlt ?_ e he
        intro e2 he2
        rcases map_set_values st.region_map p.pixnum (st.region_iter + 1) e2
          he2 with h | h
        · exact h2 e2 h
        · rw [h]
          exact hlt

theorem Regionate_values_le (coverage : List spixel)
    (sections : List stripe_section) (n_region : ℕ) (unit_area : ℚ)
    (hn : 1 ≤ n_region) :
    ∀ e ∈ (Regionate coverage sections n_region unit_area).region_map,
      e.2 ≤ n_region - 1 := by
  intro e he
  simp only [Regionate] at he
  exact regionate_go_values_le _ _ _ n_region hn
    (section_pixels coverage sections) ⟨0, 0, 0, [], []⟩ (Nat.zero_le _)
    (by simp) e he

/-- The guarantee claim C7 states for InitializeRegions: a normal return
means every stored region index lies in [0, n_region). -/
def c7_claim_prop (coverage : List spixel) (sections : List stripe_section)
    (n_region : ℕ) (unit_area : ℚ) : Prop :=
  ∀ (m : List (ℕ × ℤ)) (n : ℕ),
    InitializeRegions coverage sections n_region unit_area =
      Except.ok ⟨m, n⟩ →
    ∀ e ∈ m, 0 ≤ e.2 ∧ e.2 < (n : ℤ)

/-- A coverage list of 32769 unit-weight pixels, one more than the int16_t
counter of the enumeration branch can count without wrapping. -/
def cov7big : List spixel :=
  (List.range 32769).map (fun i => ⟨i, 0, 1⟩)

theorem cov7big_length : cov7big.length = 32769 := by
  simp [cov7big]

theorem init_cov7big_eval :
    InitializeRegions cov7big [] 32769 1 =
      Except.ok ⟨coverage_enum cov7big, 32769⟩ := by
  have hred : reduced_n cov7big 32769 = 32769 := by
    rw [reduced_n, cov7big_length]
    simp
  have hmap : init_region_map cov7big [] 32769 1 = coverage_enum cov7big := by
    rw [init_region_map, hred, cov7big_length]
    simp
  have hcheck : region_check (coverage_enum cov7big) 32769 =
      Except.ok () := by
    rw [region_check, if_pos]
    rw [List.all_eq_true]
    intro e he
    obtain ⟨j, _, _, hj⟩ := coverage_enum_from_values cov7big 0 e he
    simp only [decide_eq_true_eq, hj]
    have := wrap16_bounds j
    omega
  rw [InitializeRegions, hmap, hred, hcheck]

theorem cov7big_neg_entry :
    ((32768 : ℕ), (-32768 : ℤ)) ∈ coverage_enum cov7big := by
  apply List.getElem?_mem (n := 32768)
  rw [coverage_enum, coverage_enum_from_getElem]
  rw [show cov7big[32768]? = some ⟨32768, 0, 1⟩ from by
    rw [cov7big, List.getElem?_map, List.getElem?_range (by norm_num)]
    rfl]
  rw [show wrap16 (0 + (32768 : ℕ)) = -32768 from by rw [wrap16]; norm_num]
  rfl

/-- Counterexample to claim C7 as stated: on 32769 coverage pixels with
n_region = 32769 the enumeration branch wraps its int16_t counter, storing
region index -32768 for the last pixel; the signed check comparison lets
the negative value pass, so InitializeRegions returns normally with a
stored index outside [0, n_region) instead of aborting with exit code 2. -/
theorem c7_counterexample : ¬ c7_claim_prop cov7big [] 32769 1 := by
  intro h
  have h2 := h (coverage_enum cov7big) 32769 init_cov7big_eval
  have h3 := h2 (32768, -32768) cov7big_neg_entry
  have h4 : (0 : ℤ) ≤ -32768 := h3.1
  norm_num at h4

/-- Claim C7 amended: whenever InitializeRegions returns normally, every
stored region index is below the (possibly reduced) region count under the
signed comparison of the check loop; the indices are moreover nonnegative -
hence in [0, n_region) - provided the coverage holds at most 32768 pixels
and, in the sweep branch, the uint8-truncated region count is nonzero; and
the check loop errors with code 2 exactly when some stored index reaches
n_region (negative wrapped indices pass it). -/
theorem c7_amended (coverage : List spixel) (sections : List stripe_section)
    (n_region : ℕ) (unit_area : ℚ) (res : init_result)
    (h : InitializeRegions coverage sections n_region unit_area =
      Except.ok res) :
    ((∀ e ∈ res.region_map, e.2 < (res.n_region : ℤ)) ∧
      res.n_region = reduced_n coverage n_region ∧
      (coverage.length ≤ 32768 →
        (reduced_n coverage n_region = coverage.length ∨
          1 ≤ reduced_n coverage n_region % 256) →
        ∀ e ∈ res.region_map, 0 ≤ e.2)) ∧
    ∀ (m : List (ℕ × ℤ)) (n : ℕ),
      region_check m n = Except.error 2 ↔ ∃ e ∈ m, (n : ℤ) ≤ e.2 := by
  constructor
  · rw [InitializeRegions] at h
    rcases hc : region_check
        (init_region_map coverage sections n_region unit_area)
        (reduced_n coverage n_region) with u | e2
    · rw [hc] at h
      cases h
    · rw [hc] at h
      cases h
      refine ⟨?_, rfl, ?_⟩
      · rw [region_check] at hc
        by_cases hall :
            (init_region_map coverage sections n_region unit_area).all
              (fun e => decide (e.2 < (reduced_n coverage n_region : ℤ))) =
              true
        · intro e he
          have := (List.all_eq_true.mp hall) e he
          simpa using this
        · rw [if_neg hall] at hc
          cases hc
      · intro hlen hbr e he
        rw [init_region_map] at he
        by_cases hEq : reduced_n coverage n_region = coverage.length
        · rw [if_pos hEq] at he
          obtain ⟨j, hj1, hj2, hj3⟩ :=
            coverage_enum_from_values coverage 0 e he
          have hlen2 : (coverage.length : ℤ) ≤ 32768 := by
            exact_mod_cast hlen
          rw [hj3, wrap16]
          omega
        · rw [if_neg hEq] at he
          rcases hbr with hb | hb
          · exact absurd hb hEq
          · obtain ⟨x, hx, hxe⟩ := List.mem_map.mp he
            have hxb : x.2 ≤ reduced_n coverage n_region % 256 - 1 :=
              Regionate_values_le coverage sections _ unit_area hb x hx
            have hmod : reduced_n coverage n_region % 256 ≤ 255 := by omega
            rw [← hxe]
            simp only [wrap16]
            omega
  · intro m n
    rw [region_check]
    by_cases hall : m.all (fun e => decide (e.2 < (n : ℤ))) = true
    · rw [if_pos hall]
      constructor
      · intro hcontra
        cases hcontra
      · rintro ⟨e, he, hge⟩
        have := (List.all_eq_true.mp hall) e he
        simp at this
        omega
    · rw [if_neg hall]
      constructor
      · intro _
        rw [List.all_eq_true] at hall
        push_neg at hall
        obtain ⟨e, he, hfail⟩ := hall
        refine ⟨e, he, ?_⟩
        simp at hfail
        omega
      · intro _
        rfl

/-- Concrete coverage for the C7 witness. -/
def cov7 : List spixel := [⟨1, 0, 1⟩, ⟨2, 0, 1⟩, ⟨3, 0, 1⟩]

/-- Concrete section list for the C7 witness. -/
def secs7 : List stripe_section := [⟨0, 0⟩]

/-- The concrete result of InitializeRegions on the C7 witness input. -/
def res7 : init_result := ⟨[(1, 0), (2, 1), (3, 1)], 2⟩

theorem init_cov7_eval : InitializeRegions cov7 secs7 2 4 = Except.ok res7 := by
  have h1 : reduced_n cov7 2 = 2 := by
    norm_num [reduced_n, cov7]
  have h2 : (Regionate cov7 secs7 2 4).region_map = [(1, 0), (2, 1), (3, 1)] := by
    norm_num [Regionate, regionate_go, regionate_step, section_pixels,
      footprint_area, map_set, in_section, cov7, secs7]
  have h3 : init_region_map cov7 secs7 2 4 =
      [(1, (0 : ℤ)), (2, 1), (3, 1)] := by
    rw [init_region_map, h1]
    rw [if_neg (by norm_num [cov7])]
    rw [show (2 % 256 : ℕ) = 2 from rfl, h2]
    norm_num [wrap16]
  have h4 : region_check [(1, (0 : ℤ)), (2, 1), (3, 1)] 2 =
      Except.ok () := by
    norm_num [region_check]
  rw [InitializeRegions, h3, h1, h4]
  exact rfl

theorem c7_amended_witness :
    ((∀ e ∈ res7.region_map, e.2 < (res7.n_region : ℤ)) ∧
      res7.n_region = reduced_n cov7 2 ∧
      (cov7.length ≤ 32768 →
        (reduced_n cov7 2 = cov7.length ∨ 1 ≤ reduced_n cov7 2 % 256) →
        ∀ e ∈ res7.region_map, 0 ≤ e.2)) ∧
    ∀ (m : List (ℕ × ℤ)) (n : ℕ),
      region_check m n = Except.error 2 ↔ ∃ e ∈ m, (n : ℤ) ≤ e.2 :=
  c7_amended cov7 secs7 2 4 res7 init_cov7_eval

/-- RegionMap::Region (src/stomp/stomp_base_map.cc lines 300-303): look the
pixel index up in region_map_, returning the stored region index on a hit
and -1 on a miss; the second component is the region map after the query,
making non-mutation explicit. -/
def Region (m : List (ℕ × ℤ)) (region_idx : ℕ) : ℤ × List (ℕ × ℤ) :=
  match m.find? (fun e => decide (e.1 = region_idx)) with
  | some e => (e.2, m)
  | none => (-1, m)

/-- RegionMap::FindRegion (src/stomp/stomp_base_map.cc lines 287-292):
build the pixel enclosing the angular coordinate at the region resolution
and look its Pixnum up.  The Pixel constructor lives in stomp_pixel.cc
outside src, so the key function is the parameter pixnum_of. -/
def FindRegion {α : Type} (pixnum_of : α → ℕ → ℕ) (m : List (ℕ × ℤ))
    (resolution : ℕ) (ang : α) : ℤ × List (ℕ × ℤ) :=
  Region m (pixnum_of ang resolution)

/-- Claim C10: FindRegion returns -1 when the enclosing pixel at the region
resolution is not a key of the region map, Region returns -1 when the pixel
index is not a key, and neither query modifies the region map. -/
theorem c10_missing_key_queries {α : Type} (pixnum_of : α → ℕ → ℕ)
    (m : List (ℕ × ℤ)) (resolution : ℕ) (ang : α) (region_idx : ℕ)
    (hang : pixnum_of ang resolution ∉ m.map Prod.fst)
    (hidx : region_idx ∉ m.map Prod.fst) :
    FindRegion pixnum_of m resolution ang = (-1, m) ∧
    Region m region_idx = (-1, m) ∧
    ∀ j : ℕ, (Region m j).2 = m := by
  have hnone : ∀ key : ℕ, key ∉ m.map Prod.fst →
      m.find? (fun e => decide (e.1 = key)) = none := by
    intro key hkey
    rw [List.find?_eq_none]
    intro e he
    simp only [decide_eq_true_eq]
    intro hcontra
    exact hkey (by rw [← hcontra]; exact List.mem_map_of_mem Prod.fst he)
  refine ⟨?_, ?_, ?_⟩
  · rw [FindRegion, Region, hnone _ hang]
  · rw [Region, hnone _ hidx]
  · intro j
    rw [Region]
    cases hf : m.find? (fun e => decide (e.1 = j)) with
    | none => simp only [hf]
    | some e => simp only [hf]

theorem c10_missing_key_queries_witness :
    FindRegion (fun (a : ℕ) (r : ℕ) => a + r) [((5 : ℕ), (3 : ℤ))] 1 6 =
      (-1, [(5, 3)]) ∧
    Region [((5 : ℕ), (3 : ℤ))] 9 = (-1, [(5, 3)]) ∧
    ∀ j : ℕ, (Region [((5 : ℕ), (3 : ℤ))] j).2 = [(5, 3)] :=
  c10_missing_key_queries (fun a r => a + r) [(5, 3)] 1 6 9
    (by decide) (by decide)

end Stomp

namespace s2omp

/-- Modelled from the spec: a field pixel carrying an intensity and the
weight (unmasked fraction) of its pixel (spec sections 3 and 4.4); its
implementation file field_pixel-inl.h is outside src. -/
structure field_pixel where
  intensity : ℚ
  weight : ℚ
deriving DecidableEq

/-- The state of a field_union relevant to the density conversions: its
pixel list, the stored mean intensity and the converted-to-overdensity flag
(field list and flags of src/s2omp/field_union.h lines 165-172). -/
structure field_union where
  pixels : List field_pixel
  mean_intensity_ : ℚ
  converted_to_overdensity_ : Bool
deriving DecidableEq

def field_union.total_intensity (f : field_union) : ℚ :=
  (f.pixels.map field_pixel.intensity).sum

def field_union.total_weight (f : field_union) : ℚ :=
  (f.pixels.map field_pixel.weight).sum

/-- Modelled from the spec: field_union::convert_to_over_density, declared
at src/s2omp/field_union.h line 74 with its body in the missing
field_union.cc.  Per spec section 4.4 the mean is
Sum intensity / Sum weight and each pixel intensity becomes
intensity / weight / mean - 1; the mean is stored and the converted flag is
set. -/
def field_union.convert_to_over_density (f : field_union) : field_union :=
  let mean := f.total_intensity / f.total_weight
  { pixels := f.pixels.map
      (fun p => ⟨p.intensity / p.weight / mean - 1, p.weight⟩)
    mean_intensity_ := mean
    converted_to_overdensity_ := true }

/-- Modelled from the spec: field_union::convert_from_over_density, declared
at src/s2omp/field_union.h line 75 with its body in the missing
field_union.cc.  The inverse conversion restores
intensity = (overdensity + 1) * mean * weight from the stored mean and
clears the flag. -/
def field_union.convert_from_over_density (f : field_union) : field_union :=
  { pixels := f.pixels.map
      (fun p => ⟨(p.intensity + 1) * f.mean_intensity_ * p.weight, p.weight⟩)
    mean_intensity_ := f.mean_intensity_
    converted_to_overdensity_ := false }

/-- The round-trip property exactly as claim C8 states it: positive total
weight alone guarantees that converting to overdensity and back returns
every pixel intensity within 1e-12 relative error. -/
def c8_claim (f : field_union) : Prop :=
  0 < f.total_weight →
    ∀ (i : ℕ) (p q : field_pixel), f.pixels[i]? = some p →
      (f.convert_to_over_density.convert_from_over_density).pixels[i]? =
        some q →
      |q.intensity - p.intensity| ≤ 1 / 10 ^ 12 * |p.intensity|

/-- A field union with positive total weight but vanishing total
intensity. -/
def field_c8 : field_union := ⟨[⟨1, 1⟩, ⟨-1, 1⟩], 0, false⟩

/-- Counterexample to claim C8 as stated: with intensities +1 and -1 the
mean intensity vanishes, the conversion divides by it, and the round trip
sends the first pixel intensity 1 to 0, far outside the 1e-12 tolerance,
although the total weight 2 is positive. -/
theorem c8_counterexample : ¬ c8_claim field_c8 := by
  intro h
  have hw : 0 < field_c8.total_weight := by
    norm_num [field_union.total_weight, field_c8]
  have hq : (field_c8.convert_to_over_density.convert_from_over_density
      ).pixels[0]? = some ⟨0, 1⟩ := by
    norm_num [field_union.convert_from_over_density,
      field_union.convert_to_over_density, field_union.total_intensity,
      field_union.total_weight, field_c8]
  have h1 := h hw 0 ⟨1, 1⟩ ⟨0, 1⟩ rfl hq
  have h2 : |(0 : ℚ) - 1| ≤ 1 / 10 ^ 12 * |(1 : ℚ)| := h1
  norm_num at h2

/-- The amended round trip: the two conversions compose to the identity on
the pixel list. -/
def c8_amended_prop (f : field_union) : Prop :=
  (f.convert_to_over_density.convert_from_over_density).pixels = f.pixels

/-- Claim C8 amended: for a field_union with positive total weight, nonzero
total intensity and no zero-weight pixel, convert_to_over_density followed
by convert_from_over_density restores every pixel intensity exactly (in
exact arithmetic), in particular within 1e-12 relative error. -/
theorem c8_roundtrip (f : field_union)
    (hw : 0 < f.total_weight)
    (hi : f.total_intensity ≠ 0)
    (hp : ∀ p ∈ f.pixels, p.weight ≠ 0) :
    c8_amended_prop f := by
  have hmean : f.total_intensity / f.total_weight ≠ 0 :=
    div_ne_zero hi (ne_of_gt hw)
  rw [c8_amended_prop, field_union.convert_from_over_density,
    field_union.convert_to_over_density]
  simp only [List.map_map]
  calc f.pixels.map _ = f.pixels.map id := by
        refine List.map_congr_left ?_
        intro p hp2
        have hw2 := hp p hp2
        obtain ⟨pi, pw⟩ := p
        simp only [Function.comp, id]
        congr 1
        simp only [field_pixel.weight] at hw2
        field_simp
        ring
    _ = f.pixels := List.map_id f.pixels

/-- A field union with positive weight, nonzero intensity and nonzero
pixel weights. -/
def field_w8 : field_union := ⟨[⟨2, 1⟩, ⟨4, 1⟩], 0, false⟩

theorem c8_roundtrip_witness : c8_amended_prop field_w8 :=
  c8_roundtrip field_w8
    (by norm_num [field_union.total_weight, field_w8])
    (by norm_num [field_union.total_intensity, field_w8])
    (by
      intro p hp
      simp only [field_w8, List.mem_cons, List.not_mem_nil, or_false] at hp
      rcases hp with h | h <;> subst h <;> exact one_ne_zero)

end s2omp
